import Mathlib

/-!
Verification of the `lsu` service-manager TUI core against its specification.

The Rust sources are shallowly embedded: pure functions become Lean functions,
the detail-view state machine becomes explicit state passing, `u64`/`usize`
arithmetic is modelled on `Nat` with explicit saturation at the machine bound,
and fallible code returns `Except`.
-/

namespace Lsu

/-! ## Machine-integer saturation (from `u64::saturating_add` / `usize::saturating_mul`) -/

/-- Largest value of a 64-bit unsigned machine integer (`u64::MAX` / `usize::MAX`). -/
def u64Max : Nat := 2 ^ 64 - 1

/-- Model of `u64::saturating_add(1)` on `Nat`. -/
def satAdd64 (n : Nat) : Nat := min (n + 1) u64Max

/-- Model of `usize::saturating_mul` on `Nat`. -/
def satMul64 (a b : Nat) : Nat := min (a * b) u64Max

theorem u64Max_eq : u64Max = 18446744073709551615 := by norm_num [u64Max]

theorem satAdd64_le (n : Nat) (h : n ≤ u64Max) : n ≤ satAdd64 n := by
  unfold satAdd64 at *
  rw [u64Max_eq] at *
  omega

theorem satAdd64_lt_of_lt (n : Nat) (h : n < u64Max) : n < satAdd64 n := by
  unfold satAdd64 at *
  rw [u64Max_eq] at *
  omega

theorem satAdd64_eq_of_lt (n : Nat) (h : n < u64Max) : satAdd64 n = n + 1 := by
  unfold satAdd64 at *
  rw [u64Max_eq] at *
  omega

/-! ## `src/types.rs`: detail-view state (`DetailState`) -/

/-- A single timestamped entry in the detail log view (`DetailLogEntry`). -/
structure DetailLogEntry where
  time : String
  log : String
deriving DecidableEq, Repr

/-- Detail pane state used by async log loading (`DetailState`). -/
structure DetailState where
  unit : String
  logs : List DetailLogEntry
  scroll : Nat
  loading : Bool
  error : Option String
  nextRequestId : Nat
  activeRequestId : Option Nat
deriving DecidableEq, Repr

/-- `DetailState::default()`: all fields zero/empty. -/
def DetailState.init : DetailState :=
  { unit := "", logs := [], scroll := 0, loading := false, error := none,
    nextRequestId := 0, activeRequestId := none }

/-- `DetailState::begin_for_unit`: enter detail mode for a unit and start an
async fetch request; returns the new state and the fresh request id. -/
def DetailState.beginForUnit (s : DetailState) (unit : String) : DetailState × Nat :=
  let nid := satAdd64 s.nextRequestId
  ({ s with unit := unit, logs := [], scroll := 0, loading := true, error := none,
            nextRequestId := nid, activeRequestId := some nid }, nid)

/-- `DetailState::refresh`: trigger an async refresh for the current unit while
keeping existing rows visible; `none` when no unit is shown. -/
def DetailState.refreshState (s : DetailState) : DetailState × Option Nat :=
  if s.unit.isEmpty then (s, none)
  else
    let nid := satAdd64 s.nextRequestId
    ({ s with loading := true, error := none,
              nextRequestId := nid, activeRequestId := some nid }, some nid)

/-- `DetailState::apply_loaded`: apply an async detail-log payload when it
matches the active request; the Bool reports whether it was applied. -/
def DetailState.applyLoaded (s : DetailState) (requestId : Nat) (unit : String)
    (logs : List DetailLogEntry) : DetailState × Bool :=
  if s.activeRequestId = some requestId ∧ s.unit = unit then
    ({ s with logs := logs,
              scroll := if logs.isEmpty then 0 else min s.scroll (logs.length - 1),
              loading := false, error := none }, true)
  else (s, false)

/-- `DetailState::apply_error`: apply an async error when it matches the active
request; the Bool reports whether it was applied. -/
def DetailState.applyError (s : DetailState) (requestId : Nat) (unit : String)
    (error : String) : DetailState × Bool :=
  if s.activeRequestId = some requestId ∧ s.unit = unit then
    ({ s with loading := false, error := some error }, true)
  else (s, false)

/-! ## `src/journal.rs`: batch line budget -/

def BATCH_MIN_LINES : Nat := 200

def BATCH_PER_UNIT_LINES : Nat := 20

def BATCH_MAX_LINES : Nat := 4000

def BATCH_MAX_ATTEMPTS : Nat := 3

/-- `batch_line_budget`: bounded line budget for one batched journal attempt. -/
def batch_line_budget (unitCount attempt : Nat) : Nat :=
  let base := max BATCH_MIN_LINES (satMul64 unitCount BATCH_PER_UNIT_LINES)
  let growth := 2 ^ (min attempt 10)
  min (satMul64 base growth) BATCH_MAX_LINES

/-! ## `src/types.rs` / `src/systemd.rs`: unit actions -/

/-- A systemd unit action that can be confirmed and executed (`UnitAction`). -/
inductive UnitAction where
  | Start
  | Restart
  | Stop
  | Enable
  | Disable
deriving DecidableEq, Repr

/-- `action_for_unit_file_state`: choose the enable/disable action for a unit
from its current `UnitFileState`, or report an unsupported state. -/
def action_for_unit_file_state (unitFileState : String) : Except String UnitAction :=
  if unitFileState = "enabled" ∨ unitFileState = "enabled-runtime" ∨
      unitFileState = "linked" ∨ unitFileState = "linked-runtime" then
    Except.ok UnitAction.Disable
  else if unitFileState = "disabled" then
    Except.ok UnitAction.Enable
  else
    Except.error ("unit file state '" ++ unitFileState ++ "' does not support enable/disable")

/-! ## Sequences of detail-view requests (for the request-id discipline) -/

/-- The two request-issuing operations of the detail view. -/
inductive DetailOp where
  | beginUnit (unit : String)
  | refreshOp
deriving DecidableEq, Repr

/-- Run a sequence of `begin`/`refresh` calls, collecting every returned
request id in order. -/
def runDetailOps (s : DetailState) : List DetailOp → DetailState × List Nat
  | [] => (s, [])
  | DetailOp.beginUnit u :: ops =>
    let r := s.beginForUnit u
    let rest := runDetailOps r.1 ops
    (rest.1, r.2 :: rest.2)
  | DetailOp.refreshOp :: ops =>
    match s.refreshState with
    | (s', none) => runDetailOps s' ops
    | (s', some id) =>
      let rest := runDetailOps s' ops
      (rest.1, id :: rest.2)

/-! ## Theorems -/

/-- C3 counterexample: the claim says the first-attempt budget equals
`max(200, 20*N)` for every unit count `N`, but at `N = 201` the code already
caps the first attempt at 4000 lines (`max(200, 20*201) = 4020`). -/
theorem batch_line_budget_first_attempt_cex :
    batch_line_budget 201 0 = 4000 ∧ batch_line_budget 201 0 ≠ max 200 (20 * 201) := by
  constructor
  · decide
  · decide

/-- C3 (amended): the first-attempt budget equals `max(200, 20*N)` clamped to
the 4000-line ceiling; the budget is monotone in the attempt number, never
exceeds 4000, and is constant for every attempt from 10 on. -/
theorem batch_line_budget_spec (n a : Nat) :
    (20 * n ≤ u64Max → batch_line_budget n 0 = min (max 200 (20 * n)) 4000) ∧
    batch_line_budget n a ≤ batch_line_budget n (a + 1) ∧
    batch_line_budget n a ≤ 4000 ∧
    (10 ≤ a → batch_line_budget n a = batch_line_budget n 10) := by
  refine ⟨?_, ?_, ?_, ?_⟩
  · intro h
    rw [u64Max_eq] at h
    simp only [batch_line_budget, satMul64, BATCH_MIN_LINES, BATCH_PER_UNIT_LINES,
      BATCH_MAX_LINES, u64Max_eq, Nat.min_self, Nat.pow_zero, Nat.mul_one]
    norm_num
    omega
  · have hg : 2 ^ (min a 10) ≤ 2 ^ (min (a + 1) 10) :=
      Nat.pow_le_pow_right (by omega) (by omega)
    simp only [batch_line_budget, satMul64]
    have hb : (max BATCH_MIN_LINES (min (n * BATCH_PER_UNIT_LINES) u64Max)) * 2 ^ (min a 10) ≤
        (max BATCH_MIN_LINES (min (n * BATCH_PER_UNIT_LINES) u64Max)) * 2 ^ (min (a + 1) 10) :=
      Nat.mul_le_mul_left _ hg
    exact min_le_min (min_le_min hb (le_refl u64Max)) (le_refl BATCH_MAX_LINES)
  · exact min_le_right _ _
  · intro h
    simp only [batch_line_budget]
    rw [Nat.min_eq_right h, Nat.min_self]

/-- C3 witness: instantiating the amended budget theorem at `n = 1`,
`a = 10`. -/
theorem batch_line_budget_spec_witness :
    batch_line_budget 1 0 = min (max 200 (20 * 1)) 4000 ∧
    batch_line_budget 1 10 = batch_line_budget 1 10 :=
  ⟨(batch_line_budget_spec 1 0).1 (by decide), (batch_line_budget_spec 1 10).2.2.2 (by decide)⟩

/-- C5: enable/disable eligibility returns `Disable` exactly on
{enabled, enabled-runtime, linked, linked-runtime}, `Enable` exactly on
"disabled", and otherwise an error whose message names the offending state. -/
theorem action_for_unit_file_state_spec (s : String) :
    (action_for_unit_file_state s = Except.ok UnitAction.Disable ↔
      (s = "enabled" ∨ s = "enabled-runtime" ∨ s = "linked" ∨ s = "linked-runtime")) ∧
    (action_for_unit_file_state s = Except.ok UnitAction.Enable ↔ s = "disabled") ∧
    (¬(s = "enabled" ∨ s = "enabled-runtime" ∨ s = "linked" ∨ s = "linked-runtime" ∨
        s = "disabled") →
      action_for_unit_file_state s =
        Except.error ("unit file state '" ++ s ++ "' does not support enable/disable") ∧
      ∃ pre post, action_for_unit_file_state s = Except.error (pre ++ s ++ post)) := by
  by_cases h1 : s = "enabled" ∨ s = "enabled-runtime" ∨ s = "linked" ∨ s = "linked-runtime"
  · have hs : s ≠ "disabled" := by
      rcases h1 with h | h | h | h <;> subst h <;> decide
    refine ⟨?_, ?_, ?_⟩
    · simp [action_for_unit_file_state, h1]
    · simp [action_for_unit_file_state, h1, hs]
    · intro hcon
      exact absurd (by tauto) hcon
  · by_cases h2 : s = "disabled"
    · refine ⟨?_, ?_, ?_⟩
      · simp [action_for_unit_file_state, h1, h2]
      · simp [action_for_unit_file_state, h1, h2]
      · intro hcon
        exact absurd (by tauto) hcon
    · refine ⟨?_, ?_, ?_⟩
      · simp [action_for_unit_file_state, h1, h2]
      · simp [action_for_unit_file_state, h1, h2]
      · intro _
        refine ⟨by simp [action_for_unit_file_state, h1, h2], ?_⟩
        exact ⟨"unit file state '", "' does not support enable/disable",
          by simp [action_for_unit_file_state, h1, h2]⟩

/-- C5 witness: "enabled" resolves to `Disable` and "static" yields the
documented error message. -/
theorem action_for_unit_file_state_spec_witness :
    action_for_unit_file_state "enabled" = Except.ok UnitAction.Disable ∧
    action_for_unit_file_state "static" =
      Except.error ("unit file state '" ++ "static" ++ "' does not support enable/disable") :=
  ⟨(action_for_unit_file_state_spec "enabled").1.mpr (by tauto),
   ((action_for_unit_file_state_spec "static").2.2 (by decide)).1⟩

/-- C2: an async result (loaded logs or an error) whose request id is not the
active one, or whose unit differs from the shown unit, is dropped with the
state fully unchanged; a matching result is applied, populating the logs (or
the error) and clearing the loading flag. -/
theorem detail_apply_matches_request (s : DetailState) (rid : Nat) (u : String)
    (logs : List DetailLogEntry) (e : String) :
    (¬(s.activeRequestId = some rid ∧ s.unit = u) →
      s.applyLoaded rid u logs = (s, false) ∧ s.applyError rid u e = (s, false)) ∧
    (s.activeRequestId = some rid → s.unit = u →
      (s.applyLoaded rid u logs).2 = true ∧
      (s.applyLoaded rid u logs).1.logs = logs ∧
      (s.applyLoaded rid u logs).1.loading = false ∧
      (s.applyError rid u e).2 = true ∧
      (s.applyError rid u e).1.error = some e ∧
      (s.applyError rid u e).1.loading = false) := by
  constructor
  · intro h
    simp [DetailState.applyLoaded, DetailState.applyError, h]
  · intro h1 h2
    simp [DetailState.applyLoaded, DetailState.applyError, h1, h2]

/-- C2 witness: after `begin(u1); begin(u2)` the stale result for id 1 is
dropped with the state unchanged, and the result for id 2 applies. -/
theorem detail_apply_matches_request_witness :
    ((DetailState.init.beginForUnit "u1.service").1.beginForUnit "u2.service").1.applyLoaded
        1 "u1.service" [⟨"t", "old"⟩] =
      (((DetailState.init.beginForUnit "u1.service").1.beginForUnit "u2.service").1, false) ∧
    (((DetailState.init.beginForUnit "u1.service").1.beginForUnit "u2.service").1.applyLoaded
        2 "u2.service" [⟨"t", "new"⟩]).2 = true := by
  constructor
  · exact ((detail_apply_matches_request
      ((DetailState.init.beginForUnit "u1.service").1.beginForUnit "u2.service").1
      1 "u1.service" [⟨"t", "old"⟩] "e").1 (by decide)).1
  · exact ((detail_apply_matches_request
      ((DetailState.init.beginForUnit "u1.service").1.beginForUnit "u2.service").1
      2 "u2.service" [⟨"t", "new"⟩] "e").2 (by decide) (by decide)).1

/-- C10: after any successful `apply_loaded`, the scroll offset is a valid
index into the applied log list: 0 when the list is empty, and at most
`length - 1` otherwise, no matter how large it was before. -/
theorem detail_scroll_in_bounds (s : DetailState) (rid : Nat) (u : String)
    (logs : List DetailLogEntry) :
    (s.applyLoaded rid u logs).2 = true →
      (s.applyLoaded rid u logs).1.logs = logs ∧
      (logs = [] → (s.applyLoaded rid u logs).1.scroll = 0) ∧
      (logs ≠ [] → (s.applyLoaded rid u logs).1.scroll ≤ logs.length - 1) := by
  intro h
  by_cases hc : s.activeRequestId = some rid ∧ s.unit = u
  · refine ⟨?_, ?_, ?_⟩
    · simp [DetailState.applyLoaded, hc]
    · intro he
      simp [DetailState.applyLoaded, hc, he]
    · intro he
      simp [DetailState.applyLoaded, hc, he]
  · simp [DetailState.applyLoaded, hc] at h

/-- C10 witness: a scroll offset of 99 is clamped to 0 when a single-entry
log list is applied. -/
theorem detail_scroll_in_bounds_witness :
    (let s : DetailState :=
      { unit := "u.service", logs := [], scroll := 99, loading := true, error := none,
        nextRequestId := 1, activeRequestId := some 1 }
     (s.applyLoaded 1 "u.service" [⟨"t", "x"⟩]).1.scroll ≤ 1 - 1) := by
  exact (detail_scroll_in_bounds
    { unit := "u.service", logs := [], scroll := 99, loading := true, error := none,
      nextRequestId := 1, activeRequestId := some 1 }
    1 "u.service" [⟨"t", "x"⟩] (by decide)).2.2 (by decide)

/-- The detail state with its request-id counter saturated at `u64::MAX`. -/
def saturatedDetailState : DetailState :=
  { DetailState.init with nextRequestId := u64Max }

/-- C9 counterexample: `next_request_id` is bumped with `saturating_add`, so
once the counter sits at `u64::MAX` two successive `begin` calls return the
same id — the returned ids are not strictly increasing for every state. -/
theorem detail_request_ids_cex :
    (runDetailOps saturatedDetailState
        [DetailOp.beginUnit "a.service", DetailOp.beginUnit "b.service"]).2 =
      [u64Max, u64Max] ∧
    ¬ (runDetailOps saturatedDetailState
        [DetailOp.beginUnit "a.service", DetailOp.beginUnit "b.service"]).2.Pairwise
        (· < ·) := by
  have h : (runDetailOps saturatedDetailState
      [DetailOp.beginUnit "a.service", DetailOp.beginUnit "b.service"]).2 =
      [u64Max, u64Max] := by
    simp [runDetailOps, DetailState.beginForUnit, saturatedDetailState, DetailState.init,
      satAdd64]
  refine ⟨h, ?_⟩
  rw [h]
  intro hp
  exact absurd ((List.pairwise_cons.mp hp).1 u64Max (by simp)) (lt_irrefl u64Max)

/-- C9 (amended): over any sequence of `begin`/`refresh` calls that cannot
saturate the 64-bit counter, every returned request id is strictly greater
than the starting counter and the returned ids are strictly increasing. -/
theorem detail_request_ids_strictly_increase (s : DetailState) (ops : List DetailOp)
    (h : s.nextRequestId + ops.length ≤ u64Max) :
    (∀ i ∈ (runDetailOps s ops).2, s.nextRequestId < i) ∧
    (runDetailOps s ops).2.Pairwise (· < ·) := by
  induction ops generalizing s with
  | nil => simp [runDetailOps]
  | cons op ops ih =>
    cases op with
    | beginUnit u =>
      have hlt : s.nextRequestId < u64Max := by
        simp at h
        omega
      have hbump : satAdd64 s.nextRequestId = s.nextRequestId + 1 :=
        satAdd64_eq_of_lt _ hlt
      have hrec := ih (s.beginForUnit u).1 (by
        simp [DetailState.beginForUnit, hbump]
        simp at h
        omega)
      have hid : (s.beginForUnit u).2 = s.nextRequestId + 1 := by
        simp [DetailState.beginForUnit, hbump]
      have hcounter : (s.beginForUnit u).1.nextRequestId = s.nextRequestId + 1 := by
        simp [DetailState.beginForUnit, hbump]
      rw [hcounter] at hrec
      constructor
      · intro i hi
        simp only [runDetailOps, List.mem_cons] at hi
        rcases hi with hi | hi
        · omega
        · have := hrec.1 i hi
          omega
      · simp only [runDetailOps]
        rw [List.pairwise_cons]
        refine ⟨?_, hrec.2⟩
        intro x hx
        have := hrec.1 x hx
        omega
    | refreshOp =>
      by_cases hu : s.unit.isEmpty
      · have hempty : s.refreshState = (s, none) := by
          simp [DetailState.refreshState, hu]
        have hrec := ih s (by
          simp at h
          omega)
        simp only [runDetailOps, hempty]
        exact hrec
      · have hlt : s.nextRequestId < u64Max := by
          simp at h
          omega
        have hbump : satAdd64 s.nextRequestId = s.nextRequestId + 1 :=
          satAdd64_eq_of_lt _ hlt
        have hsome : s.refreshState =
            ({ s with loading := true, error := none,
                      nextRequestId := s.nextRequestId + 1,
                      activeRequestId := some (s.nextRequestId + 1) },
              some (s.nextRequestId + 1)) := by
          simp [DetailState.refreshState, hu, hbump]
        have hrec := ih
          { s with loading := true, error := none,
                   nextRequestId := s.nextRequestId + 1,
                   activeRequestId := some (s.nextRequestId + 1) } (by
            simp at h
            simp
            omega)
        constructor
        · intro i hi
          simp only [runDetailOps, hsome, List.mem_cons] at hi
          rcases hi with hi | hi
          · omega
          · have := hrec.1 i hi
            simp at this
            omega
        · simp only [runDetailOps, hsome]
          rw [List.pairwise_cons]
          refine ⟨?_, hrec.2⟩
          intro x hx
          have := hrec.1 x hx
          simp at this
          omega

/-- C9 witness: from the initial state, `begin; refresh; begin` returns the
strictly increasing ids 1, 2, 3. -/
theorem detail_request_ids_strictly_increase_witness :
    (∀ i ∈ (runDetailOps DetailState.init
        [DetailOp.beginUnit "a.service", DetailOp.refreshOp,
         DetailOp.beginUnit "b.service"]).2, DetailState.init.nextRequestId < i) ∧
    (runDetailOps DetailState.init
        [DetailOp.beginUnit "a.service", DetailOp.refreshOp,
         DetailOp.beginUnit "b.service"]).2.Pairwise (· < ·) :=
  detail_request_ids_strictly_increase DetailState.init
    [DetailOp.beginUnit "a.service", DetailOp.refreshOp, DetailOp.beginUnit "b.service"]
    (by rw [u64Max_eq]; decide)

/-! ## `src/rows.rs`: list-table row transforms -/

/-- Colors used by the status dot (`ratatui::Color` as used in `rows.rs`). -/
inductive Color where
  | Green
  | Yellow
  | DarkGray
  | Red
  | Blue
deriving DecidableEq, Repr

/-- Model of a `ratatui` `Style` as used in `rows.rs`: a foreground color. -/
structure Style where
  fg : Option Color
deriving DecidableEq, Repr

/-- Render-ready row for the list table (`UnitRow`). -/
structure UnitRow where
  dot : Char
  dotStyle : Style
  unit : String
  load : String
  active : String
  sub : String
  description : String
  lastLog : String
deriving DecidableEq, Repr

/-- `status_dot`: status indicator glyph and color from active/sub state. -/
def status_dot (active sub : String) : Char × Style :=
  if active = "active" ∧ sub = "running" then ('●', ⟨some Color.Green⟩)
  else if active = "active" then ('●', ⟨some Color.Yellow⟩)
  else if active = "inactive" then ('●', ⟨some Color.DarkGray⟩)
  else if active = "failed" then ('●', ⟨some Color.Red⟩)
  else ('●', ⟨some Color.Blue⟩)

/-- `load_rank`: sort rank for `load` in `--all` mode. -/
def load_rank (load : String) : Nat :=
  if load = "loaded" then 0 else if load = "not-found" then 1 else 2

/-- `active_rank`: sort rank for `active` in `--all` mode. -/
def active_rank (active : String) : Nat :=
  if active = "active" then 0 else if active = "inactive" then 1 else 2

/-- `sub_rank`: sort rank for `sub` in `--all` mode. -/
def sub_rank (sub : String) : Nat :=
  if sub = "running" then 0 else if sub = "exited" then 1
  else if sub = "dead" then 2 else 3

/-- The composite comparison key used by `sort_rows` in `--all` mode: the rank
triple followed by the unit name, compared lexicographically exactly as Rust
compares the 4-tuple. -/
def rowKey (r : UnitRow) : Nat ×ₗ (Nat ×ₗ (Nat ×ₗ String)) :=
  toLex (load_rank r.load, toLex (active_rank r.active, toLex (sub_rank r.sub, r.unit)))

/-- `sort_rows`: mode-specific stable sort (`slice::sort_by` is stable, so it
is modelled by `List.mergeSort`). -/
def sort_rows (rows : List UnitRow) (showAll : Bool) : List UnitRow :=
  if showAll then rows.mergeSort (fun a b => decide (rowKey a ≤ rowKey b))
  else rows.mergeSort (fun a b => decide (a.unit ≤ b.unit))

/-- Model of `HashMap<&str, &str>` as an association list: `insert` replaces
any existing binding for the key. -/
def alInsert (m : List (String × String)) (k v : String) : List (String × String) :=
  (k, v) :: m.filter (fun p => p.1 != k)

/-- `HashMap` lookup on the association-list model. -/
def alLookup (m : List (String × String)) (k : String) : Option String :=
  (m.find? (fun p => p.1 == k)).map (fun p => p.2)

/-- `HashMap::contains_key` on the association-list model. -/
def alContains (m : List (String × String)) (k : String) : Bool :=
  (alLookup m k).isSome

/-- `seed_logs_from_previous`: carry over previously shown log cells by unit
name; the map is built left to right, so a later duplicate wins as in
`Iterator::collect::<HashMap<_, _>>`. -/
def seed_logs_from_previous (newRows previousRows : List UnitRow) : List UnitRow :=
  let previousLogs := previousRows.foldl (fun m r => alInsert m r.unit r.lastLog) []
  newRows.map (fun row =>
    match alLookup previousLogs row.unit with
    | some oldLog => { row with lastLog := oldLog }
    | none => row)

/-- `preserve_selection`: keep the current row selection stable across
refreshes and reorders. -/
def preserve_selection (prevUnit : Option String) (rows : List UnitRow)
    (selectedIdx : Nat) : Nat :=
  if rows.isEmpty then 0
  else
    match prevUnit with
    | some unit =>
      match rows.findIdx? (fun r => r.unit == unit) with
      | some idx => idx
      | none => if selectedIdx ≥ rows.length then rows.length - 1 else selectedIdx
    | none => if selectedIdx ≥ rows.length then rows.length - 1 else selectedIdx

theorem alLookup_alInsert_self (m : List (String × String)) (k v : String) :
    alLookup (alInsert m k v) k = some v := by
  simp [alLookup, alInsert]

theorem alLookup_alInsert_ne (m : List (String × String)) (k v k' : String)
    (h : k' ≠ k) : alLookup (alInsert m k v) k' = alLookup m k' := by
  induction m with
  | nil => simp [alLookup, alInsert, Ne.symm h]
  | cons p t ih =>
    by_cases hp : p.1 = k
    · simp only [alLookup, alInsert, List.filter_cons] at *
      have hpk : (p.1 != k) = false := by simp [hp]
      have hpk' : (p.1 == k') = false := by simp [hp, Ne.symm h]
      simp only [hpk, hpk', List.find?_cons, Bool.false_eq_true, if_neg, Ne.symm h] at *
      simpa [beq_eq_false_iff_ne, Ne.symm h] using ih
    · by_cases hq : p.1 = k'
      · simp only [alLookup, alInsert, List.filter_cons] at *
        have hpk : (p.1 != k) = true := by simp [hp]
        have hpk' : (p.1 == k') = true := by simp [hq]
        have hkk' : (k == k') = false := by simp [Ne.symm h]
        simp [hpk, hpk', hkk', List.find?_cons]
      · simp only [alLookup, alInsert, List.filter_cons] at *
        have hpk : (p.1 != k) = true := by simp [hp]
        simp only [hpk, if_pos, List.find?_cons] at *
        have hpk' : (p.1 == k') = false := by simp [hq]
        simpa [hpk', beq_eq_false_iff_ne, Ne.symm h] using ih

theorem alLookup_foldl_alInsert (prev : List UnitRow) (m : List (String × String))
    (u : String) :
    alLookup (prev.foldl (fun acc r => alInsert acc r.unit r.lastLog) m) u =
      ((prev.reverse.find? (fun p => p.unit == u)).map (fun p => p.lastLog)).or
        (alLookup m u) := by
  induction prev generalizing m with
  | nil => simp
  | cons r t ih =>
    simp only [List.foldl_cons, List.reverse_cons, List.find?_append, ih]
    cases ht : t.reverse.find? (fun p => p.unit == u) with
    | some q => simp [ht]
    | none =>
      simp only [ht, Option.map_none, Option.none_or, Option.or_none, List.find?_cons,
        List.find?_nil]
      by_cases hr : r.unit = u
      · subst hr
        simp [alLookup_alInsert_self]
      · have hb : (r.unit == u) = false := by simp [hr]
        simp [hb, alLookup_alInsert_ne m r.unit r.lastLog u (Ne.symm hr)]

/-- C8: seeding the new rows from the previous rows sets each new row's log
cell to the log cell of a previous row with the same unit name whenever one
exists, and leaves any new row without a previous counterpart unchanged. -/
theorem seed_logs_spec (newRows previousRows : List UnitRow) (i : Nat) (r : UnitRow)
    (h : newRows[i]? = some r) :
    (seed_logs_from_previous newRows previousRows).length = newRows.length ∧
    ((∃ p ∈ previousRows, p.unit = r.unit) →
      ∃ p ∈ previousRows, p.unit = r.unit ∧
        (seed_logs_from_previous newRows previousRows)[i]? =
          some { r with lastLog := p.lastLog }) ∧
    ((∀ p ∈ previousRows, p.unit ≠ r.unit) →
      (seed_logs_from_previous newRows previousRows)[i]? = some r) := by
  refine ⟨by simp [seed_logs_from_previous], ?_, ?_⟩
  · rintro ⟨p, hp, hpu⟩
    have hsome : (previousRows.reverse.find? (fun q => q.unit == r.unit)).isSome := by
      rw [List.find?_isSome]
      exact ⟨p, by simpa using hp, by simp [hpu]⟩
    obtain ⟨q, hq⟩ := Option.isSome_iff_exists.mp hsome
    have hqmem : q ∈ previousRows := by
      have := List.mem_of_find?_eq_some hq
      simpa using this
    have hqu : q.unit = r.unit := by
      have := List.find?_some hq
      simpa using this
    refine ⟨q, hqmem, hqu, ?_⟩
    have hlook : alLookup (previousRows.foldl
        (fun acc s => alInsert acc s.unit s.lastLog) []) r.unit = some q.lastLog := by
      rw [alLookup_foldl_alInsert, hq]
      simp
    simp only [seed_logs_from_previous, List.getElem?_map, h, Option.map_some]
    simp [hlook]
  · intro hnone
    have hfind : previousRows.reverse.find? (fun q => q.unit == r.unit) = none := by
      rw [List.find?_eq_none]
      intro q hq
      simp only [beq_iff_eq]
      exact hnone q (by simpa using hq)
    have hlook : alLookup (previousRows.foldl
        (fun acc s => alInsert acc s.unit s.lastLog) []) r.unit = none := by
      rw [alLookup_foldl_alInsert, hfind]
      simp [alLookup]
    simp only [seed_logs_from_previous, List.getElem?_map, h, Option.map_some]
    simp [hlook]

/-- A healthy sample row used for concrete witnesses. -/
def sampleRow (u lg : String) : UnitRow :=
  ⟨'●', ⟨some Color.Green⟩, u, "loaded", "active", "running", "", lg⟩

/-- C8 witness: with previous rows for u1 and u2, the refreshed u2 row keeps
log "B" and the new u3 row stays empty. -/
theorem seed_logs_spec_witness :
    ∃ p ∈ [sampleRow "u1" "A", sampleRow "u2" "B"],
      p.unit = (sampleRow "u2" "").unit ∧
      (seed_logs_from_previous [sampleRow "u2" "", sampleRow "u3" ""]
        [sampleRow "u1" "A", sampleRow "u2" "B"])[0]? =
        some { sampleRow "u2" "" with lastLog := p.lastLog } :=
  (seed_logs_spec [sampleRow "u2" "", sampleRow "u3" ""]
      [sampleRow "u1" "A", sampleRow "u2" "B"] 0 (sampleRow "u2" "")
      (by decide)).2.1
    ⟨sampleRow "u2" "B", by decide, by decide⟩

/-- C7: selection preservation resets to 0 on an empty row set; when the
previously selected unit occurs in the new rows it selects that unit's new
position regardless of the old numeric index; otherwise it keeps an in-bounds
index and clamps an out-of-bounds index to the last row. -/
theorem preserve_selection_spec (prevUnit : Option String) (rows : List UnitRow)
    (selectedIdx : Nat) :
    (rows = [] → preserve_selection prevUnit rows selectedIdx = 0) ∧
    (∀ u i, prevUnit = some u → rows.findIdx? (fun r => r.unit == u) = some i →
      preserve_selection prevUnit rows selectedIdx = i ∧
      ∃ row, rows[i]? = some row ∧ row.unit = u) ∧
    ((∀ u, prevUnit = some u → rows.findIdx? (fun r => r.unit == u) = none) →
      rows ≠ [] →
      (selectedIdx < rows.length → preserve_selection prevUnit rows selectedIdx = selectedIdx) ∧
      (rows.length ≤ selectedIdx →
        preserve_selection prevUnit rows selectedIdx = rows.length - 1)) := by
  refine ⟨?_, ?_, ?_⟩
  · intro h
    simp [preserve_selection, h]
  · intro u i hu hfind
    subst hu
    have hne : rows ≠ [] := by
      intro hnil
      rw [hnil] at hfind
      simp at hfind
    have hrows : rows.isEmpty = false := by
      simpa [List.isEmpty_iff] using hne
    constructor
    · simp [preserve_selection, hrows, hfind]
    · obtain ⟨hlt, hpred, -⟩ := List.findIdx?_eq_some_iff_getElem.mp hfind
      exact ⟨rows[i], by simp [List.getElem?_eq_getElem hlt], by simpa using hpred⟩
  · intro hnone hne
    have hrows : rows.isEmpty = false := by
      simpa [List.isEmpty_iff] using hne
    cases prevUnit with
    | none =>
      constructor
      · intro hlt
        simp [preserve_selection, hrows, Nat.not_le.mpr hlt]
      · intro hge
        simp [preserve_selection, hrows, Nat.le_of_lt, hge]
    | some u =>
      have hfind := hnone u rfl
      constructor
      · intro hlt
        simp [preserve_selection, hrows, hfind, Nat.not_le.mpr hlt]
      · intro hge
        simp [preserve_selection, hrows, hfind, hge]

/-- C7 witness: with rows `[a, b]` replaced by `[b, c]` and unit `b`
previously selected at index 1, the new selection is index 0, where `b` now
sits. -/
theorem preserve_selection_spec_witness :
    preserve_selection (some "b.service") [sampleRow "b.service" "", sampleRow "c.service" ""] 1 = 0 ∧
    ∃ row, ([sampleRow "b.service" "", sampleRow "c.service" ""] : List UnitRow)[0]? = some row ∧
      row.unit = "b.service" :=
  (preserve_selection_spec (some "b.service")
      [sampleRow "b.service" "", sampleRow "c.service" ""] 1).2.1
    "b.service" 0 rfl (by decide)

theorem decide_key_le_trans {α β : Type} [LinearOrder β] (f : α → β) :
    ∀ a b c : α, decide (f a ≤ f b) = true → decide (f b ≤ f c) = true →
      decide (f a ≤ f c) = true := fun _ _ _ hab hbc =>
  decide_eq_true (le_trans (of_decide_eq_true hab) (of_decide_eq_true hbc))

theorem decide_key_le_total {α β : Type} [LinearOrder β] (f : α → β) :
    ∀ a b : α, (decide (f a ≤ f b) || decide (f b ≤ f a)) = true := by
  intro a b
  rcases le_total (f a) (f b) with h | h <;> simp [h]

theorem rowKey_le_unit_le (a b : UnitRow) (h : rowKey a ≤ rowKey b)
    (h1 : load_rank a.load = load_rank b.load)
    (h2 : active_rank a.active = active_rank b.active)
    (h3 : sub_rank a.sub = sub_rank b.sub) : a.unit ≤ b.unit := by
  rw [rowKey, rowKey, Prod.Lex.le_iff] at h
  rcases h with h | ⟨-, h⟩
  · simp only at h
    omega
  · rw [Prod.Lex.le_iff] at h
    rcases h with h | ⟨-, h⟩
    · simp only at h
      omega
    · rw [Prod.Lex.le_iff] at h
      rcases h with h | ⟨-, h⟩
      · simp only at h
        omega
      · exact h

/-- C6: in show-all mode, `sort_rows` orders rows by the composite
(load rank, active rank, sub rank, unit name) key, so rows with an equal rank
triple appear in unit-name order; the sort is idempotent in both modes, is a
permutation of the input, and in non-show-all mode orders rows by unit name
alone. -/
theorem sort_rows_spec (rows : List UnitRow) :
    ((sort_rows rows true).Pairwise (fun a b => rowKey a ≤ rowKey b)) ∧
    ((sort_rows rows true).Pairwise (fun a b =>
      load_rank a.load = load_rank b.load → active_rank a.active = active_rank b.active →
      sub_rank a.sub = sub_rank b.sub → a.unit ≤ b.unit)) ∧
    sort_rows (sort_rows rows true) true = sort_rows rows true ∧
    ((sort_rows rows false).Pairwise (fun a b => a.unit ≤ b.unit)) ∧
    sort_rows (sort_rows rows false) false = sort_rows rows false ∧
    (sort_rows rows true).Perm rows ∧
    (sort_rows rows false).Perm rows := by
  have hall : (sort_rows rows true).Pairwise (fun a b => rowKey a ≤ rowKey b) := by
    have hs := List.sorted_mergeSort
      (decide_key_le_trans rowKey) (decide_key_le_total rowKey) rows
    simp only [sort_rows, if_pos]
    exact hs.imp (fun h => of_decide_eq_true h)
  have hname : (sort_rows rows false).Pairwise (fun a b => a.unit ≤ b.unit) := by
    have hs := List.sorted_mergeSort
      (decide_key_le_trans (fun r : UnitRow => r.unit))
      (decide_key_le_total (fun r : UnitRow => r.unit)) rows
    simp only [sort_rows, Bool.false_eq_true, if_neg]
    exact hs.imp (fun h => of_decide_eq_true h)
  refine ⟨hall, ?_, ?_, hname, ?_, ?_, ?_⟩
  · exact hall.imp (fun h h1 h2 h3 => rowKey_le_unit_le _ _ h h1 h2 h3)
  · simp only [sort_rows, if_pos]
    exact List.mergeSort_of_sorted
      (List.sorted_mergeSort
        (decide_key_le_trans rowKey) (decide_key_le_total rowKey) rows)
  · simp only [sort_rows, Bool.false_eq_true, if_neg]
    exact List.mergeSort_of_sorted
      (List.sorted_mergeSort
        (decide_key_le_trans (fun r : UnitRow => r.unit))
        (decide_key_le_total (fun r : UnitRow => r.unit)) rows)
  · simp only [sort_rows, if_pos]
    exact List.mergeSort_perm rows _
  · simp only [sort_rows, Bool.false_eq_true, if_neg]
    exact List.mergeSort_perm rows _

/-! ## `src/journal.rs`: batched latest-log lookup

`stream_batch_latest_logs` and `last_log_line` spawn `journalctl`; they are
modelled as oracles mapping the call's inputs to the subprocess outcome, so
`latest_log_lines_batch` becomes a pure function of those oracles. -/

/-- `Result<String>::unwrap_or_default()`. -/
def exceptGetD (e : Except String String) : String :=
  match e with
  | Except.ok v => v
  | Except.error _ => ""

/-- The attempt loop of `latest_log_lines_batch`: up to `fuel` streaming
attempts, absorbing each attempt's non-empty messages and retrying only the
still-unresolved units; a failing attempt breaks out of the loop. -/
def batchAttemptsGo (stream : Nat → List String → Nat → Except String (List (String × String))) :
    Nat → Nat → List (String × String) → List String →
      List (String × String) × List String
  | _, 0, out, unresolved => (out, unresolved)
  | attempt, fuel + 1, out, unresolved =>
    if unresolved.isEmpty then (out, unresolved)
    else
      match stream attempt unresolved (batch_line_budget unresolved.length attempt) with
      | Except.error _ => (out, unresolved)
      | Except.ok found =>
        let out' := found.foldl
          (fun acc p => if p.2.trim = "" then acc else alInsert acc p.1 p.2) out
        let unresolved' := unresolved.filter (fun u => !(alContains out' u))
        batchAttemptsGo stream (attempt + 1) fuel out' unresolved'

/-- One iteration of the per-unit fallback loop: a unit still missing or
empty gets one `last_log_line` query whose failure is absorbed as an empty
string (`is_none_or` + `unwrap_or_default`). -/
def fallbackStep (fallback : String → Except String String)
    (acc : List (String × String)) (u : String) : List (String × String) :=
  match alLookup acc u with
  | none => alInsert acc u (exceptGetD (fallback u))
  | some v => if v.trim = "" then alInsert acc u (exceptGetD (fallback u)) else acc

/-- The per-unit fallback loop of `latest_log_lines_batch`. -/
def batchFallbackFold (fallback : String → Except String String)
    (out : List (String × String)) (unresolved : List String) : List (String × String) :=
  unresolved.foldl (fallbackStep fallback) out

theorem fallbackStep_of_none (fallback : String → Except String String)
    (acc : List (String × String)) (u : String) (hl : alLookup acc u = none) :
    fallbackStep fallback acc u = alInsert acc u (exceptGetD (fallback u)) := by
  simp [fallbackStep, hl]

theorem fallbackStep_of_some_empty (fallback : String → Except String String)
    (acc : List (String × String)) (u v : String) (hl : alLookup acc u = some v)
    (hv : v.trim = "") :
    fallbackStep fallback acc u = alInsert acc u (exceptGetD (fallback u)) := by
  simp [fallbackStep, hl, hv]

theorem fallbackStep_of_some_nonempty (fallback : String → Except String String)
    (acc : List (String × String)) (u v : String) (hl : alLookup acc u = some v)
    (hv : ¬ v.trim = "") :
    fallbackStep fallback acc u = acc := by
  simp [fallbackStep, hl, hv]

/-- `latest_log_lines_batch`: fetch latest logs for a batch of units, with
per-unit fallback for missing/empty results. -/
def latest_log_lines_batch
    (stream : Nat → List String → Nat → Except String (List (String × String)))
    (fallback : String → Except String String)
    (unitNames : List String) : Except String (List (String × String)) :=
  if unitNames.isEmpty then Except.ok []
  else
    let r := batchAttemptsGo stream 0 BATCH_MAX_ATTEMPTS [] unitNames
    Except.ok (batchFallbackFold fallback r.1 r.2)

theorem alContains_alInsert_self (m : List (String × String)) (k v : String) :
    alContains (alInsert m k v) k = true := by
  simp [alContains, alLookup_alInsert_self]

theorem alContains_alInsert_of (m : List (String × String)) (k v k' : String)
    (h : alContains m k' = true) : alContains (alInsert m k v) k' = true := by
  by_cases hk : k' = k
  · subst hk
    exact alContains_alInsert_self m k' v
  · simpa [alContains, alLookup_alInsert_ne m k v k' hk] using h

theorem alContains_foldl_insStep (ps : List (String × String))
    (acc : List (String × String)) (u : String) (h : alContains acc u = true) :
    alContains (ps.foldl
      (fun acc p => if p.2.trim = "" then acc else alInsert acc p.1 p.2) acc) u = true := by
  induction ps generalizing acc with
  | nil => simpa using h
  | cons p t ih =>
    simp only [List.foldl_cons]
    by_cases hp : p.2.trim = ""
    · rw [if_pos hp]
      exact ih acc h
    · rw [if_neg hp]
      exact ih _ (alContains_alInsert_of acc p.1 p.2 u h)

theorem alContains_fallbackStep_of (fallback : String → Except String String)
    (acc : List (String × String)) (x u : String) (h : alContains acc u = true) :
    alContains (fallbackStep fallback acc x) u = true := by
  cases hl : alLookup acc x with
  | none =>
    rw [fallbackStep_of_none fallback acc x hl]
    exact alContains_alInsert_of acc x _ u h
  | some v =>
    by_cases hv : v.trim = ""
    · rw [fallbackStep_of_some_empty fallback acc x v hl hv]
      exact alContains_alInsert_of acc x _ u h
    · rw [fallbackStep_of_some_nonempty fallback acc x v hl hv]
      exact h

theorem alContains_fallbackStep_self (fallback : String → Except String String)
    (acc : List (String × String)) (u : String) :
    alContains (fallbackStep fallback acc u) u = true := by
  cases hl : alLookup acc u with
  | none =>
    rw [fallbackStep_of_none fallback acc u hl]
    exact alContains_alInsert_self acc u _
  | some v =>
    by_cases hv : v.trim = ""
    · rw [fallbackStep_of_some_empty fallback acc u v hl hv]
      exact alContains_alInsert_self acc u _
    · rw [fallbackStep_of_some_nonempty fallback acc u v hl hv]
      simp [alContains, hl]

theorem alContains_batchFallbackFold_of (fallback : String → Except String String)
    (l : List String) (acc : List (String × String)) (u : String)
    (h : alContains acc u = true) :
    alContains (batchFallbackFold fallback acc l) u = true := by
  induction l generalizing acc with
  | nil => simpa [batchFallbackFold] using h
  | cons x t ih =>
    simp only [batchFallbackFold, List.foldl_cons] at *
    exact ih _ (alContains_fallbackStep_of fallback acc x u h)

theorem alContains_batchFallbackFold_mem (fallback : String → Except String String)
    (l : List String) (acc : List (String × String)) (u : String) (h : u ∈ l) :
    alContains (batchFallbackFold fallback acc l) u = true := by
  induction l generalizing acc with
  | nil => cases h
  | cons x t ih =>
    simp only [batchFallbackFold, List.foldl_cons] at *
    rcases List.mem_cons.mp h with hx | ht
    · subst hx
      exact alContains_batchFallbackFold_of fallback t _ u
        (alContains_fallbackStep_self fallback acc u)
    · exact ih _ ht

theorem batchAttemptsGo_covers (stream : Nat → List String → Nat →
      Except String (List (String × String)))
    (fuel attempt : Nat) (out : List (String × String)) (unresolved : List String)
    (u : String) (h : alContains out u = true ∨ u ∈ unresolved) :
    alContains (batchAttemptsGo stream attempt fuel out unresolved).1 u = true ∨
      u ∈ (batchAttemptsGo stream attempt fuel out unresolved).2 := by
  induction fuel generalizing attempt out unresolved with
  | zero => simpa [batchAttemptsGo] using h
  | succ fuel ih =>
    simp only [batchAttemptsGo]
    by_cases he : unresolved.isEmpty
    · simpa [he] using h
    · rw [if_neg he]
      cases hs : stream attempt unresolved (batch_line_budget unresolved.length attempt) with
      | error e => simpa using h
      | ok found =>
        simp only
        apply ih
        rcases h with hout | hmem
        · exact Or.inl (alContains_foldl_insStep found out u hout)
        · by_cases hc : alContains (found.foldl
            (fun acc p => if p.2.trim = "" then acc else alInsert acc p.1 p.2) out) u = true
          · exact Or.inl hc
          · refine Or.inr ?_
            rw [List.mem_filter]
            exact ⟨hmem, by simp [hc]⟩

theorem alLookup_of_values_empty (m : List (String × String)) (u : String)
    (hP : ∀ p ∈ m, p.2 = "") (hc : alContains m u = true) :
    alLookup m u = some "" := by
  cases hl : alLookup m u with
  | none =>
    rw [alContains, hl] at hc
    simp at hc
  | some v =>
    obtain ⟨pr, hfind, hv⟩ := Option.map_eq_some'.mp hl
    have hmem := List.mem_of_find?_eq_some hfind
    rw [← hv, hP pr hmem]

theorem values_empty_alInsert (m : List (String × String)) (k : String)
    (hP : ∀ p ∈ m, p.2 = "") : ∀ p ∈ alInsert m k "", p.2 = "" := by
  intro p hp
  rcases List.mem_cons.mp hp with hp | hp
  · rw [hp]
  · exact hP p (List.mem_of_mem_filter hp)

theorem values_empty_fallbackStep (fallback : String → Except String String)
    (hfb : ∀ u, ∃ e, fallback u = Except.error e) (acc : List (String × String))
    (u : String) (hP : ∀ p ∈ acc, p.2 = "") :
    ∀ p ∈ fallbackStep fallback acc u, p.2 = "" := by
  have hv : exceptGetD (fallback u) = "" := by
    obtain ⟨e, he⟩ := hfb u
    simp [exceptGetD, he]
  cases hl : alLookup acc u with
  | none =>
    rw [fallbackStep_of_none fallback acc u hl, hv]
    exact values_empty_alInsert acc u hP
  | some v =>
    by_cases hve : v.trim = ""
    · rw [fallbackStep_of_some_empty fallback acc u v hl hve, hv]
      exact values_empty_alInsert acc u hP
    · rw [fallbackStep_of_some_nonempty fallback acc u v hl hve]
      exact hP

theorem values_empty_batchFallbackFold (fallback : String → Except String String)
    (hfb : ∀ u, ∃ e, fallback u = Except.error e) (l : List String)
    (acc : List (String × String)) (hP : ∀ p ∈ acc, p.2 = "") :
    ∀ p ∈ batchFallbackFold fallback acc l, p.2 = "" := by
  induction l generalizing acc with
  | nil => simpa [batchFallbackFold] using hP
  | cons x t ih =>
    simp only [batchFallbackFold, List.foldl_cons] at *
    exact ih _ (values_empty_fallbackStep fallback hfb acc x hP)

/-- C4: for every streaming and fallback behavior, the batched latest-log
lookup returns success with an entry for every requested unit; in particular
when every streaming attempt and every per-unit fallback fails, every
requested unit is mapped to the empty string. -/
theorem latest_log_lines_batch_spec
    (stream : Nat → List String → Nat → Except String (List (String × String)))
    (fallback : String → Except String String)
    (unitNames : List String) (h : unitNames ≠ []) :
    ∃ m, latest_log_lines_batch stream fallback unitNames = Except.ok m ∧
      (∀ u ∈ unitNames, (alLookup m u).isSome = true) ∧
      ((∀ a us b, ∃ e, stream a us b = Except.error e) →
        (∀ u, ∃ e, fallback u = Except.error e) →
        ∀ u ∈ unitNames, alLookup m u = some "") := by
  have hne : unitNames.isEmpty = false := by
    simpa [List.isEmpty_iff] using h
  refine ⟨batchFallbackFold fallback
      (batchAttemptsGo stream 0 BATCH_MAX_ATTEMPTS [] unitNames).1
      (batchAttemptsGo stream 0 BATCH_MAX_ATTEMPTS [] unitNames).2, ?_, ?_, ?_⟩
  · simp [latest_log_lines_batch, hne]
  · intro u hu
    have hcov := batchAttemptsGo_covers stream BATCH_MAX_ATTEMPTS 0 [] unitNames u
      (Or.inr hu)
    rcases hcov with hout | hmem
    · simpa [alContains] using alContains_batchFallbackFold_of fallback _ _ u hout
    · simpa [alContains] using alContains_batchFallbackFold_mem fallback _ _ u hmem
  · intro hstream hfb u hu
    obtain ⟨e, he⟩ := hstream 0 unitNames (batch_line_budget unitNames.length 0)
    have hatt : batchAttemptsGo stream 0 BATCH_MAX_ATTEMPTS [] unitNames =
        ([], unitNames) := by
      rw [show BATCH_MAX_ATTEMPTS = 2 + 1 from rfl]
      simp [batchAttemptsGo, hne, he]
    rw [hatt]
    exact alLookup_of_values_empty _ u
      (values_empty_batchFallbackFold fallback hfb unitNames [] (by simp))
      (alContains_batchFallbackFold_mem fallback unitNames [] u hu)

/-- C4 witness: three units, a stream that always fails and a fallback that
always fails still produce a success whose map carries all three units. -/
theorem latest_log_lines_batch_spec_witness :
    ∃ m, latest_log_lines_batch (fun _ _ _ => Except.error "stream down")
        (fun _ => Except.error "journal down") ["a.service", "b.service", "c.service"] =
        Except.ok m ∧
      (alLookup m "a.service").isSome = true ∧ alLookup m "c.service" = some "" := by
  obtain ⟨m, hm, hall, hempty⟩ := latest_log_lines_batch_spec
    (fun _ _ _ => Except.error "stream down")
    (fun _ => Except.error "journal down") ["a.service", "b.service", "c.service"]
    (by decide)
  exact ⟨m, hm, hall "a.service" (by decide),
    hempty (fun a us b => ⟨"stream down", rfl⟩) (fun u => ⟨"journal down", rfl⟩)
      "c.service" (by decide)⟩

/-! ## `src/command.rs`: trusted binary resolution

Paths are modelled as component lists (`Path::starts_with` and `file_name`
are component-wise in Rust, not string operations). The filesystem accessed
through `canonicalize`, `is_file` and `metadata` is an explicit structure;
`DefaultHasher` keys in the `seen` set are modelled as path equality. -/

/-- Abstract filesystem as consulted by the resolver: symlink-resolving
`canonicalize`, the `is_file` test, and `metadata().permissions().mode()`. -/
structure FileSys where
  canonicalize : List String → Option (List String)
  isFile : List String → Bool
  metadataMode : List String → Option Nat

/-- `ALLOWED_BINARIES`. -/
def ALLOWED_BINARIES : List String := ["systemctl", "journalctl"]

/-- `TRUSTED_DIRS`, as component paths. -/
def TRUSTED_DIRS : List (List String) :=
  [["usr", "bin"], ["bin"], ["usr", "sbin"], ["sbin"], ["usr", "local", "bin"]]

/-- `is_secure_dir` (unix): metadata mode has no group/other write bit. -/
def is_secure_dir (fs : FileSys) (p : List String) : Bool :=
  match fs.metadataMode p with
  | some m => m &&& 0o022 == 0
  | none => false

/-- `is_executable` (unix): metadata mode has some execute bit. -/
def is_executable (fs : FileSys) (p : List String) : Bool :=
  match fs.metadataMode p with
  | some m => m &&& 0o111 != 0
  | none => false

/-- The loop body of `canonical_trusted_roots`: canonicalize each directory,
keep it only when secure and not seen before. -/
def rootsLoop (fs : FileSys) : List (List String) → List (List String) → List (List String)
  | [], out => out
  | dir :: rest, out =>
    match fs.canonicalize dir with
    | none => rootsLoop fs rest out
    | some canon =>
      if is_secure_dir fs canon = false then rootsLoop fs rest out
      else if out.contains canon then rootsLoop fs rest out
      else rootsLoop fs rest (out ++ [canon])

/-- `canonical_trusted_roots`. -/
def canonical_trusted_roots (fs : FileSys)
    (trustedDirs pathEntries : List (List String)) : List (List String) :=
  rootsLoop fs (trustedDirs ++ pathEntries) []

/-- `canonical_trusted_candidate`: canonicalize the candidate and accept it
only when its canonical form lies under a trusted root and keeps the
candidate's base name. -/
def canonical_trusted_candidate (fs : FileSys) (candidate : List String)
    (trustedRoots : List (List String)) : Option (List String) :=
  match fs.canonicalize candidate with
  | none => none
  | some canon =>
    match canon.getLast?, candidate.getLast? with
    | some fileName, some requested =>
      if (trustedRoots.any fun root => root.isPrefixOf canon) && (fileName == requested) then
        some canon
      else none
    | _, _ => none

/-- The candidate loop of `resolve_trusted_binary_in`: first accepted
candidate wins; `checked` is the de-duplication set. -/
def resolveLoop (fs : FileSys) (binary : String) (trustedRoots : List (List String)) :
    List (List String) → List (List String) → Option (List String)
  | [], _ => none
  | dir :: rest, checked =>
    let candidate := dir ++ [binary]
    if checked.contains candidate then
      resolveLoop fs binary trustedRoots rest checked
    else if fs.isFile candidate = false then
      resolveLoop fs binary trustedRoots rest (candidate :: checked)
    else if is_executable fs candidate = false then
      resolveLoop fs binary trustedRoots rest (candidate :: checked)
    else
      match canonical_trusted_candidate fs candidate trustedRoots with
      | some canonical => some canonical
      | none => resolveLoop fs binary trustedRoots rest (candidate :: checked)

/-- `resolve_trusted_binary_in`: resolve a trusted absolute path for one
allowed external binary; the final non-systemd error arm is unreachable after
the allowlist check, its `TRUSTED_DIRS.join` rendering is elided. -/
def resolve_trusted_binary_in (fs : FileSys) (binary : String)
    (pathEnv : Option (List (List String))) (trustedDirs : List (List String)) :
    Except String (List String) :=
  if ALLOWED_BINARIES.contains binary = false then
    Except.error ("binary '" ++ binary ++ "' is not in the allowed external command list")
  else
    let pathEntries := pathEnv.getD []
    let trustedRoots := canonical_trusted_roots fs trustedDirs pathEntries
    match resolveLoop fs binary trustedRoots (trustedDirs ++ pathEntries) [] with
    | some canonical => Except.ok canonical
    | none =>
      if binary = "systemctl" then
        Except.error "no systemctl command found, do use systemd?"
      else if binary = "journalctl" then
        Except.error "no journalctl command found, do use systemd?"
      else
        Except.error ("trusted '" ++ binary ++ "' not found in allowlisted directories")

theorem getLast?_append_singleton {α : Type} (l : List α) (a : α) :
    (l ++ [a]).getLast? = some a := by
  simp

theorem rootsLoop_sound (fs : FileSys) (dirs : List (List String))
    (out : List (List String)) (r : List String) (h : r ∈ rootsLoop fs dirs out) :
    r ∈ out ∨ (is_secure_dir fs r = true ∧ ∃ d ∈ dirs, fs.canonicalize d = some r) := by
  induction dirs generalizing out with
  | nil =>
    simp only [rootsLoop] at h
    exact Or.inl h
  | cons dir rest ih =>
    simp only [rootsLoop] at h
    cases hc : fs.canonicalize dir with
    | none =>
      simp only [hc] at h
      rcases ih out h with hout | ⟨hsec, d, hd, hcd⟩
      · exact Or.inl hout
      · exact Or.inr ⟨hsec, d, List.mem_cons_of_mem dir hd, hcd⟩
    | some canon =>
      simp only [hc] at h
      by_cases hsec : is_secure_dir fs canon = false
      · rw [if_pos hsec] at h
        rcases ih out h with hout | ⟨hs, d, hd, hcd⟩
        · exact Or.inl hout
        · exact Or.inr ⟨hs, d, List.mem_cons_of_mem dir hd, hcd⟩
      · rw [if_neg hsec] at h
        by_cases hseen : out.contains canon
        · rw [if_pos hseen] at h
          rcases ih out h with hout | ⟨hs, d, hd, hcd⟩
          · exact Or.inl hout
          · exact Or.inr ⟨hs, d, List.mem_cons_of_mem dir hd, hcd⟩
        · rw [if_neg hseen] at h
          rcases ih (out ++ [canon]) h with hout | ⟨hs, d, hd, hcd⟩
          · rcases List.mem_append.mp hout with hmem | hmem
            · exact Or.inl hmem
            · have hr : r = canon := by simpa using hmem
              subst hr
              exact Or.inr ⟨by simpa using hsec, dir, List.mem_cons_self dir rest, hc⟩
          · exact Or.inr ⟨hs, d, List.mem_cons_of_mem dir hd, hcd⟩

theorem canonical_trusted_candidate_sound (fs : FileSys) (candidate : List String)
    (trustedRoots : List (List String)) (p : List String)
    (h : canonical_trusted_candidate fs candidate trustedRoots = some p) :
    fs.canonicalize candidate = some p ∧ p.getLast? = candidate.getLast? ∧
    ∃ root ∈ trustedRoots, root.isPrefixOf p = true := by
  unfold canonical_trusted_candidate at h
  cases hc : fs.canonicalize candidate with
  | none =>
    simp only [hc] at h
    cases h
  | some canon =>
    simp only [hc] at h
    cases hf : canon.getLast? with
    | none =>
      simp only [hf] at h
      cases h
    | some fileName =>
      cases hr : candidate.getLast? with
      | none =>
        simp only [hf, hr] at h
        cases h
      | some requested =>
        simp only [hf, hr] at h
        by_cases hcond :
            ((trustedRoots.any fun root => root.isPrefixOf canon) && (fileName == requested)) = true
        · rw [if_pos hcond] at h
          cases h
          obtain ⟨hany, hnames⟩ := Bool.and_eq_true_iff.mp hcond
          obtain ⟨root, hmem, hpre⟩ := List.any_eq_true.mp hany
          refine ⟨rfl, ?_, root, hmem, hpre⟩
          rw [hf]
          exact congrArg some (by simpa using hnames)
        · rw [if_neg hcond] at h
          cases h

theorem resolveLoop_sound (fs : FileSys) (binary : String)
    (trustedRoots : List (List String)) (dirs checked : List (List String))
    (p : List String) (h : resolveLoop fs binary trustedRoots dirs checked = some p) :
    ∃ dir ∈ dirs, canonical_trusted_candidate fs (dir ++ [binary]) trustedRoots = some p := by
  induction dirs generalizing checked with
  | nil => simp [resolveLoop] at h
  | cons dir rest ih =>
    simp only [resolveLoop] at h
    by_cases h1 : checked.contains (dir ++ [binary])
    · rw [if_pos h1] at h
      obtain ⟨d, hd, hcand⟩ := ih checked h
      exact ⟨d, List.mem_cons_of_mem dir hd, hcand⟩
    · rw [if_neg h1] at h
      by_cases h2 : fs.isFile (dir ++ [binary]) = false
      · rw [if_pos h2] at h
        obtain ⟨d, hd, hcand⟩ := ih _ h
        exact ⟨d, List.mem_cons_of_mem dir hd, hcand⟩
      · rw [if_neg h2] at h
        by_cases h3 : is_executable fs (dir ++ [binary]) = false
        · rw [if_pos h3] at h
          obtain ⟨d, hd, hcand⟩ := ih _ h
          exact ⟨d, List.mem_cons_of_mem dir hd, hcand⟩
        · rw [if_neg h3] at h
          cases hcand : canonical_trusted_candidate fs (dir ++ [binary]) trustedRoots with
          | some canonical =>
            rw [hcand] at h
            cases h
            exact ⟨dir, List.mem_cons_self dir rest, hcand⟩
          | none =>
            rw [hcand] at h
            obtain ⟨d, hd, hc⟩ := ih _ h
            exact ⟨d, List.mem_cons_of_mem dir hd, hc⟩

/-- C1 (amended): any path returned by trusted binary resolution is the
canonicalization of `dir/binary` for some scanned directory, its base name is
exactly the requested program name, and it lies component-wise under a
canonical trusted root that is itself non-group/other-writable. (The claim's
further condition that an accepted candidate is never located in a
group/other-writable directory does not hold; see the counterexample.) -/
theorem resolve_trusted_binary_in_spec (fs : FileSys) (binary : String)
    (pathEnv : Option (List (List String))) (trustedDirs : List (List String))
    (p : List String)
    (h : resolve_trusted_binary_in fs binary pathEnv trustedDirs = Except.ok p) :
    p.getLast? = some binary ∧
    (∃ dir ∈ trustedDirs ++ pathEnv.getD [],
      fs.canonicalize (dir ++ [binary]) = some p) ∧
    (∃ root ∈ canonical_trusted_roots fs trustedDirs (pathEnv.getD []),
      root.isPrefixOf p = true ∧ is_secure_dir fs root = true ∧
      ∃ d ∈ trustedDirs ++ pathEnv.getD [], fs.canonicalize d = some root) := by
  unfold resolve_trusted_binary_in at h
  by_cases hall : ALLOWED_BINARIES.contains binary = false
  · rw [if_pos hall] at h
    cases h
  · rw [if_neg hall] at h
    simp only at h
    cases hloop : resolveLoop fs binary
        (canonical_trusted_roots fs trustedDirs (pathEnv.getD []))
        (trustedDirs ++ pathEnv.getD []) [] with
    | none =>
      rw [hloop] at h
      by_cases hb1 : binary = "systemctl"
      · rw [if_pos hb1] at h
        cases h
      · rw [if_neg hb1] at h
        by_cases hb2 : binary = "journalctl"
        · rw [if_pos hb2] at h
          cases h
        · rw [if_neg hb2] at h
          cases h
    | some canonical =>
      rw [hloop] at h
      cases h
      obtain ⟨dir, hdir, hcand⟩ := resolveLoop_sound fs binary _ _ _ p hloop
      obtain ⟨hcanon, hlast, root, hroot, hpre⟩ :=
        canonical_trusted_candidate_sound fs (dir ++ [binary]) _ p hcand
      have hsec := rootsLoop_sound fs (trustedDirs ++ pathEnv.getD []) [] root hroot
      rcases hsec with hmem | ⟨hs, d, hd, hcd⟩
      · cases hmem
      · refine ⟨?_, ⟨dir, hdir, hcanon⟩, root, hroot, hpre, hs, d, hd, hcd⟩
        rw [hlast, getLast?_append_singleton]

/-- The filesystem of the C1 counterexample: `/usr/bin` is a secure trusted
root, `/usr/bin/drop` is a world-writable (mode 777) subdirectory listed on
PATH, and `/usr/bin/drop/systemctl` is a regular executable file inside it. -/
def cexFs : FileSys where
  canonicalize p :=
    if p = ["usr", "bin"] ∨ p = ["usr", "bin", "drop"] ∨
        p = ["usr", "bin", "drop", "systemctl"] then some p else none
  isFile p := p == ["usr", "bin", "drop", "systemctl"]
  metadataMode p :=
    if p = ["usr", "bin"] then some 0o755
    else if p = ["usr", "bin", "drop"] then some 0o777
    else if p = ["usr", "bin", "drop", "systemctl"] then some 0o755
    else none

/-- C1 counterexample: the candidate `/usr/bin/drop/systemctl` is located in
the group/other-writable directory `/usr/bin/drop`, yet resolution accepts it,
because the acceptance check only requires the canonical path to start with
some secure trusted root (`/usr/bin`) — it never inspects the writability of
the candidate's own directory. -/
theorem resolve_trusted_binary_writable_dir_cex :
    resolve_trusted_binary_in cexFs "systemctl" (some [["usr", "bin", "drop"]])
        TRUSTED_DIRS =
      Except.ok (["usr", "bin", "drop"] ++ ["systemctl"]) ∧
    is_secure_dir cexFs ["usr", "bin", "drop"] = false ∧
    ["usr", "bin", "drop"] ∈
      (some [["usr", "bin", "drop"]] : Option (List (List String))).getD [] := by
  refine ⟨rfl, rfl, by simp⟩

/-- C1 witness: instantiating the amended resolution theorem on the concrete
filesystem model. -/
theorem resolve_trusted_binary_in_spec_witness :
    (["usr", "bin", "drop", "systemctl"] : List String).getLast? = some "systemctl" ∧
    (∃ dir ∈ TRUSTED_DIRS ++ (some [["usr", "bin", "drop"]] :
        Option (List (List String))).getD [],
      cexFs.canonicalize (dir ++ ["systemctl"]) = some ["usr", "bin", "drop", "systemctl"]) ∧
    (∃ root ∈ canonical_trusted_roots cexFs TRUSTED_DIRS
        ((some [["usr", "bin", "drop"]] : Option (List (List String))).getD []),
      root.isPrefixOf ["usr", "bin", "drop", "systemctl"] = true ∧
      is_secure_dir cexFs root = true ∧
      ∃ d ∈ TRUSTED_DIRS ++ (some [["usr", "bin", "drop"]] :
          Option (List (List String))).getD [],
        cexFs.canonicalize d = some root) :=
  resolve_trusted_binary_in_spec cexFs "systemctl" (some [["usr", "bin", "drop"]])
    TRUSTED_DIRS ["usr", "bin", "drop", "systemctl"] rfl

end Lsu
